import Mathlib

/-!
# Verification of the `path_to_regex` pattern compiler and matcher

Shallow embedding of `src/include/path_to_regex.hpp`.  C++ `std::string`
values are byte strings; we model them as `List Char`, where each element
stands for one byte (theorems that depend on byte-ness carry an explicit
`∀ c ∈ s, c.toNat < 256` hypothesis).  The external ECMAScript regex
facility (`std::regex`) is not part of the repository; it is modelled by a
parser and a backtracking engine for the dialect that the compiler emits.
-/

namespace PathToRegex

/-- Byte strings, the model of C++ `std::string` / `std::string_view`. -/
abbrev Str := List Char

/-- The `{` character (written via its code so it never looks like
interpolation syntax). -/
def lbrace : Char := Char.ofNat 123

/-- The `}` character. -/
def rbrace : Char := Char.ofNat 125

/-- C-locale `std::isalnum` on a byte: ASCII digits and letters. -/
def isalnumC (c : Char) : Bool :=
  ('0' ≤ c && c ≤ '9') || ('A' ≤ c && c ≤ 'Z') || ('a' ≤ c && c ≤ 'z')

/-- C-locale `std::isxdigit` on a byte. -/
def isxdigitC (c : Char) : Bool :=
  ('0' ≤ c && c ≤ '9') || ('A' ≤ c && c ≤ 'F') || ('a' ≤ c && c ≤ 'f')

/-- C-locale `std::toupper` on a byte. -/
def toupperC (c : Char) : Char :=
  if 'a' ≤ c && c ≤ 'z' then Char.ofNat (c.toNat - 32) else c

/-- C-locale `std::tolower` on a byte (used by `std::regex`'s
case-insensitive translation). -/
def tolowerC (c : Char) : Char :=
  if 'A' ≤ c && c ≤ 'Z' then Char.ofNat (c.toNat + 32) else c

/-- The digit table `hex_chars = "0123456789ABCDEF"` from `percent_encode`. -/
def hexChars : Str := ("0123456789ABCDEF".data)

/-- `hex_chars[n]`. -/
def hexDigit (n : Nat) : Char := hexChars.getD n '0'

/-- The `special_chars` allow-list from `percent_encode`:
`!"#$%&'()*+,-./:;<=>?@[\]^_{|}~` and backtick. -/
def specialChars : Str :=
  ("!\"#$\x25&\x27()*+,-./:;<=>?@[\\]^_\x7b|\x7d~\x60".data)

/-- One step of `percent_encode`: a single byte is passed through when it is
alphanumeric or in the allow-list, otherwise rendered `%` + two hex digits. -/
def encodeChar (c : Char) : Str :=
  if isalnumC c || specialChars.contains c then [c]
  else ['%', hexDigit (c.toNat / 16), hexDigit (c.toNat % 16)]

/-- `details::percent_encode`: the per-byte loop of the source. -/
def percentEncode : Str → Str
  | [] => []
  | c :: t => encodeChar c ++ percentEncode t

/-- The hex-digit value computation inside `percent_decode`:
`(hex >= '0' && hex <= '9') ? (hex - '0') : (std::toupper(hex) - 'A' + 10)`. -/
def hexVal (c : Char) : Nat :=
  if '0' ≤ c && c ≤ '9' then c.toNat - 48 else (toupperC c).toNat - 55

/-- `details::percent_decode`: a `%` followed by two in-bounds hex digits is
replaced by the byte they encode; anything else is copied through. -/
def percentDecode : Str → Str
  | [] => []
  | '%' :: a :: b :: t =>
    if isxdigitC a && isxdigitC b then
      Char.ofNat (16 * hexVal a + hexVal b) :: percentDecode t
    else
      '%' :: percentDecode (a :: b :: t)
  | c :: t => c :: percentDecode t

/-- `std::string_view::find` with `npos` flattened to the string's length
(the source only compares two `find` results on the same string, and every
real index is `< length`, so this preserves the comparison). -/
def strFind (c : Char) (s : Str) : Nat :=
  (s.findIdx? (fun x => x = c)).getD s.length

/-- `details::find_separator`:
`(path.find('/') <= path.find('\\')) ? '/' : '\\'`. -/
def findSeparator (s : Str) : Char :=
  if strFind '/' s ≤ strFind '\\' s then '/' else '\\'

/-- The character class of the scan's last alternative
`([.\^$*+?()|\[\]{}\\])`: the regex-special characters that get escaped. -/
def specialSet : Str :=
  ['.', '\\', '^', '$', '*', '+', '?', '(', ')', '|', '[', ']', lbrace, rbrace]

/-- The class `[\w%]` used for parameter names. -/
def wordPct (c : Char) : Bool :=
  isalnumC c || c = '_' || c = '%'

/-- Split a string at the first occurrence of `c`: `some (pre, post)` with
the original equal to `pre ++ c :: post`, or `none` when `c` is absent. -/
def breakAt (c : Char) : Str → Option (Str × Str)
  | [] => none
  | x :: xs =>
    if x = c then some ([], xs)
    else (breakAt c xs).map (fun p => (x :: p.1, p.2))

/-- One token of the scanning regex
`\{([^}]*)\}|:([\w%]+)(\([^)]+\))?|\*([\w%]+)|([.\^$*+?()|\[\]{}\\])`
(`lit` stands for text the scan leaves untouched). -/
inductive Tok where
  | lit (c : Char)
  | esc (c : Char)
  | optGrp (inner : Str)
  | req (name : Str)
  | reqC (name : Str) (body : Str)
  | wild (name : Str)
deriving DecidableEq

/-- The leftmost-match-next step of `std::sregex_iterator` over the scanning
regex, with the alternatives tried in their source order at each position. -/
def nextTok : Str → Option (Tok × Str)
  | [] => none
  | c :: rest =>
    if c = lbrace then
      match breakAt rbrace rest with
      | some (inner, after) => some (.optGrp inner, after)
      | none => some (.esc c, rest)
    else if c = ':' && (rest.head?.map wordPct).getD false then
      let name := rest.takeWhile wordPct
      let r2 := rest.dropWhile wordPct
      if r2.head? = some '(' then
        match breakAt ')' r2.tail with
        | some (body, r4) =>
          if body = [] then some (.req name, r2) else some (.reqC name body, r4)
        | none => some (.req name, r2)
      else some (.req name, r2)
    else if c = '*' && (rest.head?.map wordPct).getD false then
      some (.wild (rest.takeWhile wordPct), rest.dropWhile wordPct)
    else if specialSet.contains c then some (.esc c, rest)
    else some (.lit c, rest)

/-- The fragment `"([^\" + separator + "]+?)"` emitted for a required
parameter without a custom sub-pattern. -/
def defaultCapture (sep : Char) : Str :=
  '(' :: '[' :: '^' :: '\\' :: sep :: [']', '+', '?', ')']

/-- The fragment `"(\S+?)"` emitted for a wildcard parameter. -/
def wildCapture : Str := ['(', '\\', 'S', '+', '?', ')']

/-- `details::make_pattern(path, keys, separator)` (the recursive overload).
Returns the pattern fragment, the keys discovered in order (the source
appends them to a by-reference vector), and — as extra instrumentation the
C++ discards — the custom sub-patterns spliced in verbatim, used only to
state invariants.  `fuel` makes the recursion structural; every recursive
call is on a strictly shorter string, so `s.length < fuel` is enough. -/
def mkPat : Nat → Str → Char → Str × List Str × List Str
  | 0, _, _ => ([], [], [])
  | fuel + 1, s, sep =>
    match nextTok s with
    | none => ([], [], [])
    | some (.optGrp inner, rest) =>
      let r1 := mkPat fuel inner sep
      let r2 := mkPat fuel rest sep
      let frag := if r1.1 = [] then [] else ('(' :: '?' :: ':' :: r1.1) ++ [')', '?']
      (frag ++ r2.1, r1.2.1 ++ r2.2.1, r1.2.2 ++ r2.2.2)
    | some (.req name, rest) =>
      let r := mkPat fuel rest sep
      (defaultCapture sep ++ r.1, percentDecode name :: r.2.1, r.2.2)
    | some (.reqC name body, rest) =>
      let r := mkPat fuel rest sep
      (('(' :: body ++ [')']) ++ r.1, percentDecode name :: r.2.1,
        ('(' :: body ++ [')']) :: r.2.2)
    | some (.wild name, rest) =>
      let r := mkPat fuel rest sep
      (wildCapture ++ r.1, percentDecode name :: r.2.1, r.2.2)
    | some (.esc c, rest) =>
      let r := mkPat fuel rest sep
      ('\\' :: c :: r.1, r.2.1, r.2.2)
    | some (.lit c, rest) =>
      let r := mkPat fuel rest sep
      (c :: r.1, r.2.1, r.2.2)

/-- `details::make_pattern(path, keys)` (the top-level overload): encode the
path, detect the separator, compile, append an escaped separator unless the
fragment already ends with the separator, and wrap in `^ … ?$`. -/
def compilePattern (path : Str) : Str × List Str × List Str :=
  let enc := percentEncode path
  let sep := findSeparator path
  let r := mkPat (enc.length + 1) enc sep
  let pat2 := if r.1 = [] || r.1.getLast? ≠ some sep then r.1 ++ ['\\', sep] else r.1
  ('^' :: pat2 ++ ['?', '$'], r.2.1, r.2.2)

/-- `path_to_regex::case_sensitivity`. -/
inductive case_sensitivity where
  | case_sensitive
  | case_insensitive
deriving DecidableEq

/-- The data of `path_to_regex::matcher`: the stored pattern string
(`m_pattern`), the ordered key list (`m_keys`) and the sensitivity used to
build the regex flags.  The `std::regex` object itself is reconstructed
from `pattern` on demand by the regex model below. -/
structure MatcherS where
  pattern : Str
  keys : List Str
  ci : Bool
deriving DecidableEq

/-- `path_to_regex::match`: compile the pattern and construct the matcher.
Note the constructed matcher stores the *compiled* pattern string. -/
def matchCompile (p : Str) (sens : case_sensitivity) : MatcherS :=
  { pattern := (compilePattern p).1
    keys := (compilePattern p).2.1
    ci := sens = case_sensitivity.case_insensitive }

/-! ## Model of the external ECMAScript regex facility

`std::regex` is outside the repository.  We model the dialect the compiler
emits (and the small custom sub-patterns the claims exercise): literals,
identity escapes, `\S` `\d` `\w` `\s`, character classes, capturing and
non-capturing groups, greedy/lazy `?`, greedy/lazy `*` and `+` over
single-character atoms, and `{n}` counted repetition.  `run` is a
backtracking engine in continuation-passing style whose ordered choice
realises ECMAScript's leftmost/alternative-priority semantics;
`regex_match` semantics (full-string match) correspond to `runFull`. -/

/-- A single-character matcher (one consumed character). -/
inductive CAtom where
  | lit (c : Char)
  | cls (neg : Bool) (cs : List Char)
  | nonspace
  | space
  | digit
  | word
deriving DecidableEq

/-- The regex subset emitted by the compiler.  Quantified sub-expressions
other than `?` are restricted to single-character atoms, which is all the
compiler produces. -/
inductive Regex where
  | eps
  | atom (a : CAtom)
  | seq (r s : Regex)
  | grp (i : Nat) (r : Regex)
  | opt (lazy : Bool) (r : Regex)
  | star (lazy : Bool) (a : CAtom)
  | rep (n : Nat) (a : CAtom)
deriving DecidableEq

/-- ECMAScript whitespace (the ASCII part; the repository never produces
non-ASCII pattern bytes for `\S` to see). -/
def isSpaceC (c : Char) : Bool :=
  c = ' ' || c = '\t' || c = '\n' || c = Char.ofNat 11 || c = Char.ofNat 12 || c = '\r'

/-- Character comparison under the case-sensitivity flag (`icase` compares
case-folded, as `regex_traits::translate_nocase`). -/
def eqChar (ci : Bool) (a b : Char) : Bool :=
  if ci then tolowerC a = tolowerC b else a = b

/-- Does atom `a` accept character `c`? -/
def matchCA (ci : Bool) (a : CAtom) (c : Char) : Bool :=
  match a with
  | .lit d => eqChar ci d c
  | .cls neg cs => let m := cs.any (fun d => eqChar ci d c); if neg then !m else m
  | .nonspace => !isSpaceC c
  | .space => isSpaceC c
  | .digit => '0' ≤ c && c ≤ '9'
  | .word => isalnumC c || c = '_'

/-- Captures: group index ↦ most recently captured text. -/
abbrev Caps := List (Nat × Str)

/-- Overwrite-or-add a capture. -/
def setCap : Caps → Nat → Str → Caps
  | [], i, v => [(i, v)]
  | (j, w) :: t, i, v => if j = i then (i, v) :: t else (j, w) :: setCap t i v

/-- Look up a capture. -/
def getCap (g : Caps) (i : Nat) : Option Str :=
  (g.find? (fun p => p.1 = i)).map (fun p => p.2)

/-- Ordered choice: the left (higher-priority) alternative wins. -/
def orO (a b : Option Caps) : Option Caps :=
  match a with
  | some r => some r
  | none => b

/-- `a*` over a single-character atom, greedy or lazy, in CPS. -/
def runStar (ci : Bool) (lz : Bool) (a : CAtom) :
    Str → Caps → (Str → Caps → Option Caps) → Option Caps
  | [], g, k => k [] g
  | c :: t, g, k =>
    let more := if matchCA ci a c then runStar ci lz a t g k else none
    if lz then orO (k (c :: t) g) more else orO more (k (c :: t) g)

/-- `a{n}`: exactly `n` repetitions of a single-character atom. -/
def runRep (ci : Bool) (a : CAtom) : Nat → Str → Caps → (Str → Caps → Option Caps) → Option Caps
  | 0, s, g, k => k s g
  | _ + 1, [], _, _ => none
  | n + 1, c :: t, g, k => if matchCA ci a c then runRep ci a n t g k else none

/-- The backtracking engine.  A group's capture is the prefix its body
consumed, recorded when the body completes (ECMAScript semantics: a skipped
group leaves its capture undefined). -/
def run (ci : Bool) : Regex → Str → Caps → (Str → Caps → Option Caps) → Option Caps
  | .eps, s, g, k => k s g
  | .atom _, [], _, _ => none
  | .atom a, c :: t, g, k => if matchCA ci a c then k t g else none
  | .seq r1 r2, s, g, k => run ci r1 s g (fun s2 g2 => run ci r2 s2 g2 k)
  | .grp i r, s, g, k =>
    run ci r s g (fun s2 g2 => k s2 (setCap g2 i (s.take (s.length - s2.length))))
  | .opt lz r, s, g, k =>
    if lz then orO (k s g) (run ci r s g k) else orO (run ci r s g k) (k s g)
  | .star lz a, s, g, k => runStar ci lz a s g k
  | .rep n a, s, g, k => runRep ci a n s g k

/-- `std::regex_match`: the whole input must be consumed. -/
def runFull (ci : Bool) (re : Regex) (s : Str) : Option Caps :=
  run ci re s [] (fun rest g => if rest = [] then some g else none)

/-! ### Parser for the emitted dialect

Only used to turn the compiler's output string into a `Regex`; returns
`none` for anything outside the modelled subset, which corresponds to
`std::regex` construction failure (or an unmodelled feature).  `fuel`
bounds the recursion; theorems never depend on a particular fuel value
because they take `parse … = some re` as a hypothesis or evaluate
concretely. -/

/-- Parse the body of a character class after `[` (and after an optional
`^`), up to the closing `]`.  Members are plain characters or
backslash-escaped characters; ranges are not emitted by the compiler. -/
def parseClassBody : Nat → Str → Option (List Char × Str)
  | 0, _ => none
  | _ + 1, ']' :: t => some ([], t)
  | fuel + 1, '\\' :: c :: t =>
    (parseClassBody fuel t).map (fun p => (c :: p.1, p.2))
  | fuel + 1, c :: t =>
    if c = '\\' then none
    else (parseClassBody fuel t).map (fun p => (c :: p.1, p.2))
  | _ + 1, [] => none

/-- Parse one escape character (after a backslash). -/
def parseEscape (c : Char) : Option CAtom :=
  if c = 'S' then some .nonspace
  else if c = 's' then some .space
  else if c = 'd' then some .digit
  else if c = 'w' then some .word
  else if isalnumC c then none
  else some (.lit c)

/-- Read a decimal number. -/
def parseNum (s : Str) : Option (Nat × Str) :=
  let ds := s.takeWhile (fun c => '0' ≤ c && c ≤ '9')
  if ds = [] then none
  else some (ds.foldl (fun n c => 10 * n + (c.toNat - 48)) 0, s.dropWhile (fun c => '0' ≤ c && c ≤ '9'))

mutual

/-- Parse a sequence of quantified elements, stopping at `)` or the end. -/
def parseSeq : Nat → Str → Nat → Option (Regex × Str × Nat)
  | 0, _, _ => none
  | _ + 1, [], gi => some (.eps, [], gi)
  | _ + 1, ')' :: t, gi => some (.eps, ')' :: t, gi)
  | fuel + 1, s, gi =>
    match parseElem fuel s gi with
    | none => none
    | some (r1, s1, gi1) =>
      match parseSeq fuel s1 gi1 with
      | none => none
      | some (r2, s2, gi2) => some (.seq r1 r2, s2, gi2)

/-- Parse one element together with its quantifier suffix. -/
def parseElem : Nat → Str → Nat → Option (Regex × Str × Nat)
  | 0, _, _ => none
  | fuel + 1, s, gi =>
    match parseBase fuel s gi with
    | none => none
    | some (r, s1, gi1) =>
      match s1 with
      | '?' :: '?' :: t => some (.opt true r, t, gi1)
      | '?' :: t => some (.opt false r, t, gi1)
      | '*' :: t =>
        match r with
        | .atom a => match t with
          | '?' :: t2 => some (.star true a, t2, gi1)
          | _ => some (.star false a, t, gi1)
        | _ => none
      | '+' :: t =>
        match r with
        | .atom a => match t with
          | '?' :: t2 => some (.seq (.atom a) (.star true a), t2, gi1)
          | _ => some (.seq (.atom a) (.star false a), t, gi1)
        | _ => none
      | c :: t =>
        if c = lbrace then
          match r, parseNum t with
          | .atom a, some (n, t2) =>
            match t2 with
            | c2 :: t3 => if c2 = rbrace then some (.rep n a, t3, gi1) else none
            | [] => none
          | _, _ => none
        else some (r, c :: t, gi1)
      | [] => some (r, [], gi1)

/-- Parse one unquantified element. -/
def parseBase : Nat → Str → Nat → Option (Regex × Str × Nat)
  | 0, _, _ => none
  | fuel + 1, s, gi =>
    match s with
    | '\\' :: c :: t => (parseEscape c).map (fun a => (.atom a, t, gi))
    | '[' :: '^' :: t =>
      (parseClassBody fuel t).map (fun p => (.atom (.cls true p.1), p.2, gi))
    | '[' :: t =>
      (parseClassBody fuel t).map (fun p => (.atom (.cls false p.1), p.2, gi))
    | '(' :: '?' :: ':' :: t =>
      match parseSeq fuel t gi with
      | some (r, ')' :: t2, gi2) => some (r, t2, gi2)
      | _ => none
    | '(' :: t =>
      match t with
      | '?' :: _ => none
      | _ =>
        match parseSeq fuel t (gi + 1) with
        | some (r, ')' :: t2, gi2) => some (.grp gi r, t2, gi2)
        | _ => none
    | c :: t =>
      if c = '\\' || c = '[' || c = '(' || c = ')' || c = '^' || c = '$' ||
          c = '*' || c = '+' || c = '?' || c = '|' || c = lbrace then none
      else some (.atom (.lit c), t, gi)
    | [] => none

end

/-- Model of `std::regex` construction on the compiled pattern string: the
pattern always has the shape `^ … $`, and the body must lie in the modelled
dialect. -/
def parseTop (s : Str) : Option Regex :=
  match s with
  | '^' :: t =>
    if t.getLast? = some '$' then
      match parseSeq (t.length + 1) t.dropLast 1 with
      | some (r, [], _) => some r
      | _ => none
    else none
  | _ => none

/-! ## Matcher evaluation (`matcher::operator()`) -/

/-- The `params` mapping: the model of `std::unordered_map` assignment is an
association list with overwrite-in-place semantics. -/
abbrev Params := List (Str × Str)

/-- `params[key] = value`: overwrite if present, append otherwise. -/
def store : Params → Str → Str → Params
  | [], k, v => [(k, v)]
  | (k2, w) :: t, k, v => if k2 = k then (k, v) :: t else (k2, w) :: store t k v

/-- Lookup in the params mapping. -/
def lookupP (m : Params) (k : Str) : Option Str :=
  (m.find? (fun p => p.1 = k)).map (fun p => p.2)

/-- The value bound for key-list index `i`: the percent-decoded text of
capturing group `i + 1` (an unmatched group's `str()` is empty). -/
def valueOfIdx (caps : Caps) (i : Nat) : Str :=
  percentDecode ((getCap caps (i + 1)).getD [])

/-- The extraction loop of `matcher::operator()`:
`for i in 0..keys.size(): params[keys[i]] = decode(match[i+1].str())`. -/
def buildParams (caps : Caps) (keys : List Str) : Params :=
  keys.enum.foldl (fun m p => store m p.2 (valueOfIdx caps p.1)) []

/-- `matcher::operator()` given the constructed regex: encode the path,
run a full match, extract params on success. -/
def evalRegex (ci : Bool) (re : Regex) (keys : List Str) (path : Str) : Bool × Params :=
  match runFull ci re (percentEncode path) with
  | none => (false, [])
  | some caps => (true, buildParams caps keys)

/-- Evaluate a matcher on a path; `none` exactly when the stored pattern
falls outside the modelled regex dialect (construction would have thrown,
so no such matcher exists in C++). -/
def evalMatcher (m : MatcherS) (path : Str) : Option (Bool × Params) :=
  (parseTop m.pattern).map (fun re => evalRegex m.ci re m.keys path)

/-! ## Counting capturing groups of a pattern string

ECMAScript rule: an unescaped `(` outside a character class opens a
capturing group unless followed by `?`. -/

/-- Scanner; the flag tracks whether we are inside a `[...]` class. -/
def countGroupsAux : Str → Bool → Nat
  | [], _ => 0
  | c :: t, ic =>
    if c = '\\' then
      match t with
      | [] => 0
      | _ :: t2 => countGroupsAux t2 ic
    else if ic then
      if c = ']' then countGroupsAux t false else countGroupsAux t true
    else if c = '[' then countGroupsAux t true
    else if c = '(' then
      (match t with | '?' :: _ => 0 | _ => 1) + countGroupsAux t false
    else countGroupsAux t false

/-- Number of capturing groups of a pattern string. -/
def countGroups (s : Str) : Nat := countGroupsAux s false

/-! ## Character-level helper lemmas -/

theorem char_toNat_ofNat (n : Nat) (h : n < 55296) : (Char.ofNat n).toNat = n := by
  unfold Char.ofNat
  split
  · simp [Char.toNat, Char.ofNatAux, UInt32.toNat, BitVec.toNat_ofNatLt]
  · rename_i hv
    exact absurd (Or.inl (by omega)) hv

theorem char_eq_of_toNat (a b : Char) (h : a.toNat = b.toNat) : a = b :=
  Char.ext (UInt32.ext h)

theorem char_le_iff (a b : Char) : a ≤ b ↔ a.toNat ≤ b.toNat := by
  rw [Char.le_def]; exact ge_iff_le

/-- The value of a hex digit as the claims read it (`0-9`, `a-f`, `A-F`),
independent of the source's `toupper` arithmetic. -/
def digitValueSpec (c : Char) : Nat :=
  if '0' ≤ c && c ≤ '9' then c.toNat - 48
  else if 'a' ≤ c && c ≤ 'f' then c.toNat - 87
  else if 'A' ≤ c && c ≤ 'F' then c.toNat - 55
  else 0

/-- The source's `(hex - '0')` / `(toupper(hex) - 'A' + 10)` computation
agrees with the plain reading of a hex digit. -/
theorem hexVal_eq_digitValueSpec (c : Char) (h : isxdigitC c = true) :
    hexVal c = digitValueSpec c := by
  have h0 : ('0' : Char).toNat = 48 := by decide
  have h9 : ('9' : Char).toNat = 57 := by decide
  have hA : ('A' : Char).toNat = 65 := by decide
  have hF : ('F' : Char).toNat = 70 := by decide
  have ha : ('a' : Char).toNat = 97 := by decide
  have hf : ('f' : Char).toNat = 102 := by decide
  have hz : ('z' : Char).toNat = 122 := by decide
  simp only [isxdigitC, Bool.or_eq_true, Bool.and_eq_true, decide_eq_true_eq, char_le_iff,
    h0, h9, hA, hF, ha, hf] at h
  unfold hexVal digitValueSpec toupperC
  split_ifs with i1 i2 i3 i4 i5 i6 <;>
    simp only [Bool.and_eq_true, decide_eq_true_eq, char_le_iff, h0, h9, hA, hF, ha, hf, hz,
      not_and, not_le] at * <;>
    first
      | omega
      | (rw [char_toNat_ofNat _ (by omega)]; omega)

/-! ## Equation lemmas for `percentDecode` -/

theorem percentDecode_cons_ne (c : Char) (t : Str) (hc : c ≠ '%') :
    percentDecode (c :: t) = c :: percentDecode t := by
  rw [percentDecode.eq_def]
  split
  · simp_all
  · simp_all
  · rename_i s0 c0 t0 hno heq
    cases heq; rfl

theorem percentDecode_escape (a b : Char) (t : Str)
    (ha : isxdigitC a = true) (hb : isxdigitC b = true) :
    percentDecode ('%' :: a :: b :: t) =
      Char.ofNat (16 * hexVal a + hexVal b) :: percentDecode t := by
  simp [percentDecode, ha, hb]

theorem percentDecode_bad (a b : Char) (t : Str)
    (h : ¬(isxdigitC a = true ∧ isxdigitC b = true)) :
    percentDecode ('%' :: a :: b :: t) = '%' :: percentDecode (a :: b :: t) := by
  have hff : (isxdigitC a && isxdigitC b) = false := by
    rcases Bool.eq_false_or_eq_true (isxdigitC a) with h1 | h1 <;>
      rcases Bool.eq_false_or_eq_true (isxdigitC b) with h2 | h2 <;> simp_all
  simp [percentDecode, hff]

theorem percentDecode_short1 (a : Char) :
    percentDecode ['%', a] = '%' :: percentDecode [a] := by rfl

theorem percentDecode_short0 : percentDecode ['%'] = ['%'] := by rfl


theorem hexDigit_spec : ∀ n, n < 16 →
    hexDigit n ∈ hexChars ∧ isxdigitC (hexDigit n) = true ∧
      digitValueSpec (hexDigit n) = n ∧ hexVal (hexDigit n) = n := by decide

theorem percentEncode_eq_flatMap (x : Str) : percentEncode x = x.flatMap encodeChar := by
  induction x with
  | nil => rfl
  | cons c t ih => simp [percentEncode, ih]

theorem encodeChar_length (c : Char) : (encodeChar c).length ≤ 3 := by
  unfold encodeChar
  split <;> simp

theorem contains_iff (l : Str) (c : Char) : l.contains c = true ↔ c ∈ l :=
  List.elem_iff


/-- Does the string begin with two hex digits? -/
def startsEsc : Str → Bool
  | a :: b :: _ => isxdigitC a && isxdigitC b
  | _ => false

/-- Does the string contain a valid percent escape (a `%` followed by two
hex digits)?  Exactly the inputs on which `percentDecode` is not the
identity, and the predicate of the amended round-trip claim. -/
def hasEscape : Str → Bool
  | [] => false
  | c :: t => (c = '%' && startsEsc t) || hasEscape t

theorem decode_pct_cons (y : Str) (hy : startsEsc y = false) :
    percentDecode ('%' :: y) = '%' :: percentDecode y := by
  match y with
  | [] => rfl
  | [a] => exact percentDecode_short1 a
  | a :: b :: t =>
    refine percentDecode_bad a b t ?_
    intro ⟨h1, h2⟩
    simp [startsEsc, h1, h2] at hy

theorem hex_isalnum (c : Char) (h : isxdigitC c = true) : isalnumC c = true := by
  have h9 : ('9' : Char).toNat = 57 := by decide
  have hA : ('A' : Char).toNat = 65 := by decide
  have hF : ('F' : Char).toNat = 70 := by decide
  have hZ : ('Z' : Char).toNat = 90 := by decide
  have ha : ('a' : Char).toNat = 97 := by decide
  have hf : ('f' : Char).toNat = 102 := by decide
  have hz : ('z' : Char).toNat = 122 := by decide
  have h0 : ('0' : Char).toNat = 48 := by decide
  simp only [isxdigitC, Bool.or_eq_true, Bool.and_eq_true, decide_eq_true_eq, char_le_iff,
    h0, h9, hA, hF, ha, hf] at h
  simp only [isalnumC, Bool.or_eq_true, Bool.and_eq_true, decide_eq_true_eq, char_le_iff,
    h0, h9, hA, hZ, ha, hz]
  omega

theorem encodeChar_pass (c : Char) (h : (isalnumC c || specialChars.contains c) = true) :
    encodeChar c = [c] := by
  unfold encodeChar
  rw [if_pos h]

theorem encodeChar_not_pass (c : Char) (h : (isalnumC c || specialChars.contains c) = false) :
    encodeChar c = ['%', hexDigit (c.toNat / 16), hexDigit (c.toNat % 16)] := by
  unfold encodeChar
  rw [if_neg (by rw [h]; simp)]

theorem encode_startsEsc (t : Str) (ht : startsEsc t = false) :
    startsEsc (percentEncode t) = false := by
  match t with
  | [] => rfl
  | a :: t' =>
    show startsEsc (encodeChar a ++ percentEncode t') = false
    rcases h1 : (isalnumC a || specialChars.contains a) with _ | _
    · rw [encodeChar_not_pass a h1]
      simp [startsEsc]
      intro hpct
      exact absurd hpct (by decide)
    · rw [encodeChar_pass a h1]
      rcases h2 : isxdigitC a with _ | _
      · match t', percentEncode t' with
        | _, [] => rfl
        | _, b :: y => simp [startsEsc, h2]
      · match t' with
        | [] => rfl
        | b :: t'' =>
          have hb : isxdigitC b = false := by
            rcases hb : isxdigitC b with _ | _
            · rfl
            · simp [startsEsc, h2, hb] at ht
          rcases h3 : (isalnumC b || specialChars.contains b) with _ | _
          · rw [show percentEncode (b :: t'') = encodeChar b ++ percentEncode t'' from rfl,
              encodeChar_not_pass b h3]
            simp [startsEsc, h2]
            exact (by decide : isxdigitC '%' = false)
          · rw [show percentEncode (b :: t'') = encodeChar b ++ percentEncode t'' from rfl,
              encodeChar_pass b h3]
            simp [startsEsc, h2, hb]


theorem compilePattern_shape (p : Str) :
    ∃ q, (compilePattern p).1 = '^' :: q ++ ['?', '$'] ∧ q ≠ [] ∧
      q.getLast? = some (findSeparator p) := by
  unfold compilePattern
  simp only []
  set r := mkPat ((percentEncode p).length + 1) (percentEncode p) (findSeparator p) with hr
  split_ifs with h
  · refine ⟨r.1 ++ ['\\', findSeparator p], rfl, by simp, ?_⟩
    rw [List.getLast?_append]
    rfl
  · simp only [Bool.or_eq_true, decide_eq_true_eq, not_or] at h
    exact ⟨r.1, rfl, h.1, by simpa using h.2⟩

theorem tolowerC_eq_slash (c : Char) : tolowerC c = '/' ↔ c = '/' := by
  unfold tolowerC
  split
  · rename_i hc
    simp only [Bool.and_eq_true, decide_eq_true_eq, char_le_iff] at hc
    have hA : ('A' : Char).toNat = 65 := by decide
    have hZ : ('Z' : Char).toNat = 90 := by decide
    rw [hA] at hc
    rw [hZ] at hc
    constructor
    · intro h
      exfalso
      have := congrArg Char.toNat h
      rw [char_toNat_ofNat _ (by omega)] at this
      have hs : ('/' : Char).toNat = 47 := by decide
      omega
    · intro h
      exfalso
      subst h
      have hs : ('/' : Char).toNat = 47 := by decide
      omega
  · exact Iff.rfl

theorem eqChar_slash (ci : Bool) (c : Char) : (eqChar ci '/' c = true) ↔ c = '/' := by
  cases ci with
  | false =>
    show (decide (('/' : Char) = c)) = true ↔ c = '/'
    simp only [decide_eq_true_eq]
    exact eq_comm
  | true =>
    show (decide (tolowerC '/' = tolowerC c)) = true ↔ c = '/'
    have h1 : tolowerC '/' = '/' := by decide
    rw [h1]
    simp only [decide_eq_true_eq]
    rw [eq_comm, tolowerC_eq_slash]

/-- The regex compiled from the empty pattern. -/
def emptyPatRegex : Regex := Regex.seq (.opt false (.atom (.lit '/'))) .eps

theorem c10_engine (ci : Bool) (s : Str) :
    runFull ci emptyPatRegex s = if s = [] ∨ s = ['/'] then some [] else none := by
  match s with
  | [] => rfl
  | [c] =>
    simp only [runFull, emptyPatRegex, run, orO, matchCA]
    by_cases hc : c = '/'
    · subst hc
      rw [if_pos ((eqChar_slash ci '/').mpr rfl)]
      simp
    · rw [if_neg (fun h => hc ((eqChar_slash ci c).mp h))]
      simp [hc]
  | a :: b :: t =>
    simp only [runFull, emptyPatRegex, run, orO, matchCA]
    have h1 : (a :: b :: t : Str) ≠ [] := by simp
    have h2 : (a :: b :: t : Str) ≠ ['/'] := by simp
    simp [h1, h2]

theorem percentEncode_nil_iff (x : Str) : percentEncode x = [] ↔ x = [] := by
  cases x with
  | nil => simp [percentEncode]
  | cons c t =>
    simp only [percentEncode, List.append_eq_nil]
    constructor
    · intro ⟨h1, _⟩
      exfalso
      unfold encodeChar at h1
      split at h1 <;> simp at h1
    · intro h
      cases h

theorem percentEncode_slash_iff (x : Str) : percentEncode x = ['/'] ↔ x = ['/'] := by
  constructor
  · intro h
    cases x with
    | nil => simp [percentEncode] at h
    | cons c t =>
      rw [show percentEncode (c :: t) = encodeChar c ++ percentEncode t from rfl] at h
      unfold encodeChar at h
      split at h
      · simp only [List.singleton_append, List.cons.injEq] at h
        rw [h.1, (percentEncode_nil_iff t).mp h.2]
      · exfalso
        simp only [List.cons_append, List.cons.injEq] at h
        have := h.1
        exact absurd this (by decide)
  · intro h
    subst h
    decide

/-- Well-formed character-class body: what may appear between `[` and the
closing `]` so that the group scanner stays in class mode until that `]`. -/
inductive ClsB : Str → Prop
  | nil : ClsB []
  | chr : ∀ c t, c ≠ ']' → c ≠ '\\' → ClsB t → ClsB (c :: t)
  | esc : ∀ c t, ClsB t → ClsB ('\\' :: c :: t)

/-- Scanner-neutral pattern fragments: they start and end in normal (non
class) scanner state, with no dangling backslash, so group counting is
additive under concatenation. -/
inductive Frag : Str → Prop
  | nil : Frag []
  | chr : ∀ c t, c ≠ '\\' → c ≠ '[' → c ≠ '(' → Frag t → Frag (c :: t)
  | esc : ∀ c t, Frag t → Frag ('\\' :: c :: t)
  | cls : ∀ b t, ClsB b → Frag t → Frag ('[' :: (b ++ ']' :: t))
  | ncap : ∀ t, Frag t → Frag ('(' :: '?' :: t)
  | cap : ∀ c t, c ≠ '?' → Frag (c :: t) → Frag ('(' :: c :: t)

theorem countAux_esc (c : Char) (t : Str) (ic : Bool) :
    countGroupsAux ('\\' :: c :: t) ic = countGroupsAux t ic := by
  conv_lhs => rw [countGroupsAux.eq_def]
  simp

theorem countAux_lbrk (t : Str) : countGroupsAux ('[' :: t) false = countGroupsAux t true := by
  conv_lhs => rw [countGroupsAux.eq_def]
  simp

theorem countAux_rbrk (t : Str) : countGroupsAux (']' :: t) true = countGroupsAux t false := by
  conv_lhs => rw [countGroupsAux.eq_def]
  simp

theorem countAux_plain (c : Char) (t : Str) (h1 : c ≠ '\\') (h2 : c ≠ '[') (h3 : c ≠ '(') :
    countGroupsAux (c :: t) false = countGroupsAux t false := by
  conv_lhs => rw [countGroupsAux.eq_def]
  simp [h1, h2, h3]

theorem countAux_plain_true (c : Char) (t : Str) (h1 : c ≠ '\\') (h2 : c ≠ ']') :
    countGroupsAux (c :: t) true = countGroupsAux t true := by
  conv_lhs => rw [countGroupsAux.eq_def]
  simp [h1, h2]

theorem match_q (c : Char) (t : Str) (h : c ≠ '?') :
    (match (c :: t : Str) with | '?' :: _ => (0 : Nat) | _ => 1) = 1 := by
  split
  · rename_i heq
    exact absurd (List.cons.inj heq).1 h
  · rfl

theorem countAux_cap (c : Char) (t : Str) (h : c ≠ '?') :
    countGroupsAux ('(' :: c :: t) false = 1 + countGroupsAux (c :: t) false := by
  conv_lhs => rw [countGroupsAux.eq_def]
  simp only [if_neg (by decide : ¬('(' : Char) = '\\'), Bool.false_eq_true, if_false,
    if_neg (by decide : ¬('(' : Char) = '['), if_pos (rfl : ('(' : Char) = '(')]
  rw [match_q c t h]
  simp

theorem countAux_ncap (t : Str) :
    countGroupsAux ('(' :: '?' :: t) false = countGroupsAux ('?' :: t) false := by
  conv_lhs => rw [countGroupsAux.eq_def]
  simp

theorem countAux_clsB (b : Str) (hb : ClsB b) :
    ∀ x, countGroupsAux (b ++ ']' :: x) true = countGroupsAux x false := by
  induction hb with
  | nil => intro x; exact countAux_rbrk x
  | chr c t hc1 hc2 _ ih =>
    intro x
    rw [List.cons_append, countAux_plain_true c _ hc2 hc1, ih]
  | esc c t _ ih =>
    intro x
    rw [List.cons_append, List.cons_append, countAux_esc, ih]

theorem countAux_append (a : Str) (ha : Frag a) :
    ∀ x, countGroupsAux (a ++ x) false = countGroupsAux a false + countGroupsAux x false := by
  induction ha with
  | nil => intro x; simp [countGroupsAux]
  | chr c t h1 h2 h3 _ ih =>
    intro x
    rw [List.cons_append, countAux_plain c _ h1 h2 h3, ih, countAux_plain c t h1 h2 h3]
  | esc c t _ ih =>
    intro x
    rw [List.cons_append, List.cons_append, countAux_esc, ih, countAux_esc]
  | cls b t hb _ ih =>
    intro x
    rw [List.cons_append, List.append_assoc, List.cons_append, countAux_lbrk,
      countAux_clsB b hb, ih, countAux_lbrk, countAux_clsB b hb]
  | ncap t _ ih =>
    intro x
    rw [List.cons_append, List.cons_append, countAux_ncap, countAux_ncap,
      countAux_plain '?' _ (by decide) (by decide) (by decide),
      countAux_plain '?' t (by decide) (by decide) (by decide), ih]
  | cap c t hc _ ih =>
    intro x
    rw [List.cons_append, List.cons_append, countAux_cap c _ hc, countAux_cap c t hc]
    have h2 := ih x
    rw [List.cons_append] at h2
    omega

theorem Frag_append (a b : Str) (ha : Frag a) (hb : Frag b) : Frag (a ++ b) := by
  induction ha with
  | nil => exact hb
  | chr c t h1 h2 h3 _ ih => exact Frag.chr c _ h1 h2 h3 ih
  | esc c t _ ih => exact Frag.esc c _ ih
  | cls bb t hcb _ ih =>
    rw [List.cons_append, List.append_assoc, List.cons_append]
    exact Frag.cls bb _ hcb ih
  | ncap t _ ih => exact Frag.ncap _ ih
  | cap c t hc _ ih =>
    refine Frag.cap c _ hc ?_
    rw [show (c :: t) ++ b = c :: (t ++ b) from rfl] at ih
    exact ih

theorem Frag_defaultCapture (sep : Char) : Frag (defaultCapture sep) := by
  unfold defaultCapture
  refine Frag.cap '[' _ (by decide) ?_
  refine Frag.cls ['^', '\\', sep] [ '+', '?', ')'] ?_ ?_
  · exact ClsB.chr '^' _ (by decide) (by decide) (ClsB.esc sep [] ClsB.nil)
  · exact Frag.chr '+' _ (by decide) (by decide) (by decide)
      (Frag.chr '?' _ (by decide) (by decide) (by decide)
        (Frag.chr ')' _ (by decide) (by decide) (by decide) Frag.nil))

theorem count_defaultCapture (sep : Char) : countGroups (defaultCapture sep) = 1 := by
  unfold countGroups defaultCapture
  rw [countAux_cap '[' _ (by decide), countAux_lbrk,
    countAux_plain_true '^' _ (by decide) (by decide), countAux_esc, countAux_rbrk,
    countAux_plain '+' _ (by decide) (by decide) (by decide),
    countAux_plain '?' _ (by decide) (by decide) (by decide),
    countAux_plain ')' _ (by decide) (by decide) (by decide)]
  rfl

theorem Frag_wildCapture : Frag wildCapture := by
  unfold wildCapture
  refine Frag.cap '\\' _ (by decide) ?_
  exact Frag.esc 'S' _ (Frag.chr '+' _ (by decide) (by decide) (by decide)
    (Frag.chr '?' _ (by decide) (by decide) (by decide)
      (Frag.chr ')' _ (by decide) (by decide) (by decide) Frag.nil)))

theorem count_wildCapture : countGroups wildCapture = 1 := by decide

theorem breakAt_eq (c : Char) (s : Str) :
    ∀ pre post, breakAt c s = some (pre, post) → s = pre ++ c :: post := by
  induction s with
  | nil => intro pre post h; cases h
  | cons x xs ih =>
    intro pre post h
    unfold breakAt at h
    split_ifs at h with hx
    · subst hx
      simp only [Option.some.injEq, Prod.mk.injEq] at h
      rw [← h.1, ← h.2]
      rfl
    · cases hb : breakAt c xs with
      | none => rw [hb] at h; cases h
      | some p =>
        rw [hb] at h
        simp only [Option.map_some', Option.some.injEq, Prod.mk.injEq] at h
        rw [← h.1, ← h.2]
        rw [List.cons_append]
        rw [← ih p.1 p.2 (by rw [hb])]

theorem length_dropWhile_le (p : Char → Bool) (l : Str) :
    (l.dropWhile p).length ≤ l.length := by
  induction l with
  | nil => simp
  | cons a t ih =>
    rw [List.dropWhile_cons]
    split
    · simp
      omega
    · simp

theorem nextTok_facts (s : Str) (tok : Tok) (rest : Str) (h : nextTok s = some (tok, rest)) :
    rest.length < s.length ∧
    (∀ inner, tok = .optGrp inner → inner.length + rest.length + 2 = s.length) ∧
    (∀ c, tok = .lit c → specialSet.contains c = false) := by
  cases s with
  | nil => cases h
  | cons c t =>
    simp only [nextTok] at h
    have hd : (List.dropWhile wordPct t).length ≤ t.length := length_dropWhile_le _ _
    split_ifs at h with h1 h2 h3 h4 h5
    · -- c = lbrace
      cases hb : breakAt rbrace t with
      | some p =>
        obtain ⟨inner, after⟩ := p
        simp only [hb, Option.some.injEq, Prod.mk.injEq] at h
        obtain ⟨htok, hrest⟩ := h
        have he := breakAt_eq rbrace t inner after hb
        have hlen : t.length = inner.length + 1 + after.length := by
          rw [he]
          simp only [List.length_append, List.length_cons]
          omega
        subst htok
        rw [← hrest]
        refine ⟨by simp only [List.length_cons]; omega, ?_, ?_⟩
        · intro i hi
          cases hi
          simp only [List.length_cons]
          omega
        · intro c2 hc2; cases hc2
      | none =>
        simp only [hb, Option.some.injEq, Prod.mk.injEq] at h
        obtain ⟨htok, hrest⟩ := h
        subst htok
        rw [← hrest]
        refine ⟨by simp only [List.length_cons]; omega, ?_, ?_⟩
        · intro i hi; cases hi
        · intro c2 hc2; cases hc2
    · -- required parameter with '(' following the name
      have htl : (List.dropWhile wordPct t).tail.length + 1 ≤ t.length := by
        cases hdw : List.dropWhile wordPct t with
        | nil => rw [hdw] at h3; cases h3
        | cons a b =>
          rw [hdw] at hd
          simp only [List.length_cons, List.tail_cons] at hd ⊢
          omega
      cases hb : breakAt ')' (List.dropWhile wordPct t).tail with
      | some p =>
        obtain ⟨body, r4⟩ := p
        simp only [hb] at h
        have he := breakAt_eq ')' _ body r4 hb
        have hr4 : r4.length + 1 ≤ (List.dropWhile wordPct t).tail.length := by
          rw [he]
          simp only [List.length_append, List.length_cons]
          omega
        by_cases hbody : body = []
        · rw [if_pos hbody] at h
          simp only [Option.some.injEq, Prod.mk.injEq] at h
          obtain ⟨htok, hrest⟩ := h
          subst htok
          rw [← hrest]
          refine ⟨by simp only [List.length_cons]; omega, ?_, ?_⟩
          · intro i hi; cases hi
          · intro c2 hc2; cases hc2
        · rw [if_neg hbody] at h
          simp only [Option.some.injEq, Prod.mk.injEq] at h
          obtain ⟨htok, hrest⟩ := h
          subst htok
          rw [← hrest]
          refine ⟨by simp only [List.length_cons]; omega, ?_, ?_⟩
          · intro i hi; cases hi
          · intro c2 hc2; cases hc2
      | none =>
        simp only [hb, Option.some.injEq, Prod.mk.injEq] at h
        obtain ⟨htok, hrest⟩ := h
        subst htok
        rw [← hrest]
        refine ⟨by simp only [List.length_cons]; omega, ?_, ?_⟩
        · intro i hi; cases hi
        · intro c2 hc2; cases hc2
    · -- required parameter, no custom sub-pattern
      simp only [Option.some.injEq, Prod.mk.injEq] at h
      obtain ⟨htok, hrest⟩ := h
      subst htok
      rw [← hrest]
      refine ⟨by simp only [List.length_cons]; omega, ?_, ?_⟩
      · intro i hi; cases hi
      · intro c2 hc2; cases hc2
    · -- wildcard
      simp only [Option.some.injEq, Prod.mk.injEq] at h
      obtain ⟨htok, hrest⟩ := h
      subst htok
      rw [← hrest]
      refine ⟨by simp only [List.length_cons]; omega, ?_, ?_⟩
      · intro i hi; cases hi
      · intro c2 hc2; cases hc2
    · -- escaped special
      simp only [Option.some.injEq, Prod.mk.injEq] at h
      obtain ⟨htok, hrest⟩ := h
      subst htok
      rw [← hrest]
      refine ⟨by simp only [List.length_cons]; omega, ?_, ?_⟩
      · intro i hi; cases hi
      · intro c2 hc2; cases hc2
    · -- literal
      simp only [Option.some.injEq, Prod.mk.injEq] at h
      obtain ⟨htok, hrest⟩ := h
      subst htok
      rw [← hrest]
      refine ⟨by simp only [List.length_cons]; omega, ?_, ?_⟩
      · intro i hi; cases hi
      · intro c2 hc2
        cases hc2
        exact Bool.eq_false_iff.mpr h5

theorem contains_false_ne (c d : Char) (h : specialSet.contains c = false)
    (hd : specialSet.contains d = true) : c ≠ d := by
  intro he
  subst he
  rw [h] at hd
  cases hd

theorem count_close_opt : countGroupsAux ([')', '?'] : Str) false = 0 := by decide

theorem mkPat_invariant (sep : Char) :
    ∀ fuel s, s.length < fuel →
      ((∀ cu ∈ (mkPat fuel s sep).2.2, Frag cu ∧ countGroups cu = 1) →
        Frag (mkPat fuel s sep).1 ∧
        countGroups (mkPat fuel s sep).1 = (mkPat fuel s sep).2.1.length) ∧
      ((mkPat fuel s sep).1 = [] → (mkPat fuel s sep).2.1 = []) := by
  intro fuel
  induction fuel with
  | zero => intro s hs; omega
  | succ n ih =>
    intro s hs
    cases ht : nextTok s with
    | none =>
      have hm : mkPat (n + 1) s sep = ([], [], []) := by simp [mkPat, ht]
      rw [hm]
      exact ⟨fun _ => ⟨Frag.nil, rfl⟩, fun _ => rfl⟩
    | some tr =>
      obtain ⟨tok, rest⟩ := tr
      obtain ⟨hlt, hoptlen, hlitf⟩ := nextTok_facts s tok rest ht
      have hrn : rest.length < n := by omega
      cases tok with
      | lit c =>
        simp only [mkPat, ht]
        have hcf := hlitf c rfl
        have hc1 : c ≠ '\\' := contains_false_ne c '\\' hcf (by decide)
        have hc2 : c ≠ '[' := contains_false_ne c '[' hcf (by decide)
        have hc3 : c ≠ '(' := contains_false_ne c '(' hcf (by decide)
        constructor
        · intro hcu
          obtain ⟨hf, hc⟩ := (ih rest hrn).1 hcu
          refine ⟨Frag.chr c _ hc1 hc2 hc3 hf, ?_⟩
          unfold countGroups at hc ⊢
          rw [countAux_plain c _ hc1 hc2 hc3, hc]
        · intro hnil
          cases hnil
      | esc c =>
        simp only [mkPat, ht]
        constructor
        · intro hcu
          obtain ⟨hf, hc⟩ := (ih rest hrn).1 hcu
          refine ⟨Frag.esc c _ hf, ?_⟩
          unfold countGroups at hc ⊢
          rw [countAux_esc, hc]
        · intro hnil
          cases hnil
      | wild name =>
        simp only [mkPat, ht]
        constructor
        · intro hcu
          obtain ⟨hf, hc⟩ := (ih rest hrn).1 hcu
          refine ⟨Frag_append _ _ Frag_wildCapture hf, ?_⟩
          unfold countGroups at hc ⊢
          rw [countAux_append _ Frag_wildCapture, hc]
          have : countGroupsAux wildCapture false = 1 := count_wildCapture
          rw [this]
          simp only [List.length_cons]
          omega
        · intro hnil
          exact absurd (List.append_eq_nil.mp hnil).1 (by decide)
      | req name =>
        simp only [mkPat, ht]
        constructor
        · intro hcu
          obtain ⟨hf, hc⟩ := (ih rest hrn).1 hcu
          refine ⟨Frag_append _ _ (Frag_defaultCapture sep) hf, ?_⟩
          unfold countGroups at hc ⊢
          rw [countAux_append _ (Frag_defaultCapture sep), hc]
          have : countGroupsAux (defaultCapture sep) false = 1 := count_defaultCapture sep
          rw [this]
          simp only [List.length_cons]
          omega
        · intro hnil
          exact absurd (List.append_eq_nil.mp hnil).1 (by simp [defaultCapture])
      | reqC name body =>
        simp only [mkPat, ht]
        constructor
        · intro hcu
          have hcust := hcu ('(' :: body ++ [')']) (List.mem_cons_self _ _)
          have hcu2 : ∀ cu ∈ (mkPat n rest sep).2.2, Frag cu ∧ countGroups cu = 1 :=
            fun cu hm => hcu cu (List.mem_cons_of_mem _ hm)
          obtain ⟨hf, hc⟩ := (ih rest hrn).1 hcu2
          refine ⟨Frag_append _ _ hcust.1 hf, ?_⟩
          unfold countGroups at hc hcust ⊢
          rw [countAux_append _ hcust.1, hc, hcust.2]
          simp only [List.length_cons]
          omega
        · intro hnil
          exact absurd (List.append_eq_nil.mp hnil).1 (by simp)
      | optGrp inner =>
        have hin : inner.length < n := by
          have := hoptlen inner rfl
          omega
        simp only [mkPat, ht]
        constructor
        · intro hcu
          have hcuL : ∀ cu ∈ (mkPat n inner sep).2.2, Frag cu ∧ countGroups cu = 1 :=
            fun cu hm => hcu cu (List.mem_append_left _ hm)
          have hcuR : ∀ cu ∈ (mkPat n rest sep).2.2, Frag cu ∧ countGroups cu = 1 :=
            fun cu hm => hcu cu (List.mem_append_right _ hm)
          obtain ⟨hfL, hcL⟩ := (ih inner hin).1 hcuL
          obtain ⟨hfR, hcR⟩ := (ih rest hrn).1 hcuR
          by_cases hsub : (mkPat n inner sep).1 = []
          · rw [if_pos hsub]
            have hkL : (mkPat n inner sep).2.1 = [] := (ih inner hin).2 hsub
            rw [hkL]
            simp only [List.nil_append]
            exact ⟨hfR, hcR⟩
          · rw [if_neg hsub]
            have hfrag : Frag (('(' :: '?' :: ':' :: (mkPat n inner sep).1) ++ [')', '?']) := by
              have : ('(' :: '?' :: ':' :: (mkPat n inner sep).1) ++ [')', '?'] =
                  '(' :: '?' :: (':' :: ((mkPat n inner sep).1 ++ [')', '?'])) := by simp
              rw [this]
              refine Frag.ncap _ (Frag.chr ':' _ (by decide) (by decide) (by decide) ?_)
              refine Frag_append _ _ hfL ?_
              exact Frag.chr ')' _ (by decide) (by decide) (by decide)
                (Frag.chr '?' _ (by decide) (by decide) (by decide) Frag.nil)
            refine ⟨Frag_append _ _ hfrag hfR, ?_⟩
            unfold countGroups at hcL hcR ⊢
            rw [countAux_append _ hfrag, hcR]
            have hcf : countGroupsAux (('(' :: '?' :: ':' :: (mkPat n inner sep).1)
                ++ [')', '?']) false = (mkPat n inner sep).2.1.length := by
              have he : ('(' :: '?' :: ':' :: (mkPat n inner sep).1) ++ [')', '?'] =
                  '(' :: '?' :: (':' :: ((mkPat n inner sep).1 ++ [')', '?'])) := by simp
              rw [he, countAux_ncap, countAux_plain '?' _ (by decide) (by decide) (by decide),
                countAux_plain ':' _ (by decide) (by decide) (by decide),
                countAux_append _ hfL, count_close_opt, hcL]
              omega
            rw [hcf]
            simp only [List.length_append]
        · intro hnil
          obtain ⟨hfrag, hrest⟩ := List.append_eq_nil.mp hnil
          have hkR : (mkPat n rest sep).2.1 = [] := (ih rest hrn).2 hrest
          by_cases hsub : (mkPat n inner sep).1 = []
          · have hkL : (mkPat n inner sep).2.1 = [] := (ih inner hin).2 hsub
            rw [hkL, hkR]
            rfl
          · rw [if_neg hsub] at hfrag
            cases hfrag



theorem compile_countGroups (p : Str)
    (hcu : ∀ cu ∈ (compilePattern p).2.2, Frag cu ∧ countGroups cu = 1) :
    countGroups (compilePattern p).1 = (compilePattern p).2.1.length := by
  obtain ⟨hf, hc⟩ := (mkPat_invariant (findSeparator p) ((percentEncode p).length + 1)
    (percentEncode p) (by omega)).1 hcu
  set q := mkPat ((percentEncode p).length + 1) (percentEncode p) (findSeparator p) with hq
  have hshape : (compilePattern p).1 =
      '^' :: ((if q.1 = [] || q.1.getLast? ≠ some (findSeparator p)
        then q.1 ++ ['\\', findSeparator p] else q.1) ++ ['?', '$']) := rfl
  have hkeys : (compilePattern p).2.1 = q.2.1 := rfl
  rw [hshape, hkeys]
  unfold countGroups at hc ⊢
  have h2 : countGroupsAux (['?', '$'] : Str) false = 0 := by decide
  have h3 : countGroupsAux (['\\', findSeparator p] : Str) false = 0 := by
    rw [countAux_esc]
    rfl
  split_ifs with hcase
  · have hfp : Frag (q.1 ++ ['\\', findSeparator p]) :=
      Frag_append _ _ hf (Frag.esc _ _ Frag.nil)
    rw [countAux_plain '^' _ (by decide) (by decide) (by decide),
      countAux_append _ hfp, countAux_append _ hf, hc, h2, h3]
    omega
  · rw [countAux_plain '^' _ (by decide) (by decide) (by decide),
      countAux_append _ hf, hc, h2]
    omega


theorem mem_enumFrom_of_mem (k : Str) :
    ∀ (t : List Str) (n : Nat), k ∈ t → ∃ i, (i, k) ∈ List.enumFrom n t := by
  intro t
  induction t with
  | nil => intro n h; cases h
  | cons a t ih =>
    intro n h
    rcases List.mem_cons.mp h with h | h
    · exact ⟨n, by rw [h]; simp [List.enumFrom]⟩
    · obtain ⟨i, hi⟩ := ih (n + 1) h
      exact ⟨i, by rw [List.enumFrom]; exact List.mem_cons_of_mem _ hi⟩

theorem mem_enum_of_mem (keys : List Str) (k : Str) (h : k ∈ keys) :
    ∃ i, (i, k) ∈ keys.enum :=
  mem_enumFrom_of_mem k keys 0 h

theorem mem_of_mem_enum (keys : List Str) (q : Nat × Str) (h : q ∈ keys.enum) : q.2 ∈ keys := by
  have he := List.enum_map_snd keys
  rw [← he]
  exact List.mem_map_of_mem Prod.snd h


theorem find?_append (p : Nat × Str → Bool) (l1 l2 : List (Nat × Str)) :
    (l1 ++ l2).find? p =
      match l1.find? p with
      | some a => some a
      | none => l2.find? p := by
  induction l1 with
  | nil => simp
  | cons a t ih =>
    by_cases h : p a
    · rw [List.cons_append, List.find?_cons_of_pos _ h, List.find?_cons_of_pos _ h]
    · rw [List.cons_append, List.find?_cons_of_neg _ (by simp [h]),
        List.find?_cons_of_neg _ (by simp [h]), ih]

theorem lookupP_cons (a : Str × Str) (t : Params) (k : Str) :
    lookupP (a :: t) k = if a.1 = k then some a.2 else lookupP t k := by
  unfold lookupP
  by_cases h : a.1 = k
  · rw [List.find?_cons_of_pos _ (by simp [h]), if_pos h]
    rfl
  · rw [List.find?_cons_of_neg _ (by simp [h]), if_neg h]

theorem lookupP_store (m : Params) (k v k2 : Str) :
    lookupP (store m k v) k2 = if k = k2 then some v else lookupP m k2 := by
  induction m with
  | nil =>
    show lookupP [(k, v)] k2 = _
    rw [lookupP_cons]
  | cons a t ih =>
    obtain ⟨a1, a2⟩ := a
    show lookupP (if a1 = k then (k, v) :: t else (a1, a2) :: store t k v) k2 = _
    by_cases h : a1 = k
    · rw [if_pos h, lookupP_cons]
      by_cases h2 : k = k2
      · rw [if_pos h2, if_pos h2]
      · rw [if_neg h2, if_neg h2, lookupP_cons, if_neg (fun hh => h2 (h ▸ hh))]
    · rw [if_neg h, lookupP_cons, ih]
      by_cases ha : a1 = k2
      · have hk2 : ¬(k = k2) := fun hh => h (by rw [ha, hh])
        rw [if_pos ha, if_neg hk2, lookupP_cons, if_pos ha]
      · rw [if_neg ha]
        by_cases h2 : k = k2
        · rw [if_pos h2, if_pos h2]
        · rw [if_neg h2, if_neg h2, lookupP_cons, if_neg ha]

theorem lookupP_foldl (caps : Caps) (k : Str) (l : List (Nat × Str)) :
    ∀ m : Params,
      lookupP (l.foldl (fun m2 p => store m2 p.2 (valueOfIdx caps p.1)) m) k =
        match l.reverse.find? (fun q => decide (q.2 = k)) with
        | some q => some (valueOfIdx caps q.1)
        | none => lookupP m k := by
  induction l with
  | nil => intro m; simp
  | cons a l ih =>
    intro m
    rw [List.foldl_cons, ih, List.reverse_cons, find?_append]
    cases h1 : l.reverse.find? (fun q => decide (q.2 = k)) with
    | some q => rfl
    | none =>
      by_cases ha : a.2 = k
      · rw [List.find?_cons_of_pos _ (by simp [ha])]
        rw [lookupP_store]
        rw [if_pos ha]
      · rw [List.find?_cons_of_neg _ (by simp [ha])]
        rw [lookupP_store]
        rw [if_neg ha]
        rfl

theorem lookupP_build (caps : Caps) (keys : List Str) (k : Str) :
    lookupP (buildParams caps keys) k =
      (keys.enum.reverse.find? (fun q => decide (q.2 = k))).map
        (fun q => valueOfIdx caps q.1) := by
  unfold buildParams
  rw [lookupP_foldl]
  cases h : keys.enum.reverse.find? (fun q => decide (q.2 = k)) <;> rfl

theorem lookupP_build_isSome (caps : Caps) (keys : List Str) (k : Str) :
    (lookupP (buildParams caps keys) k).isSome = true ↔ k ∈ keys := by
  rw [lookupP_build]
  cases h : keys.enum.reverse.find? (fun q => decide (q.2 = k)) with
  | none =>
    simp only [Option.map_none', Option.isSome_none, Bool.false_eq_true, false_iff]
    intro hk
    rw [List.find?_eq_none] at h
    obtain ⟨i, hi⟩ := mem_enum_of_mem keys k hk
    exact h (i, k) (List.mem_reverse.mpr hi) (by simp)
  | some q =>
    simp only [Option.map_some', Option.isSome_some, true_iff]
    have hq := List.find?_some h
    have hmem := List.mem_of_find?_eq_some h
    simp only [decide_eq_true_eq] at hq
    rw [← hq]
    exact mem_of_mem_enum keys q (List.mem_reverse.mp hmem)

/-! ## Claims -/

/-- **C6.** For every raw pattern, the separator detector returns `/` when
the first occurrence of `/` is at or before the first occurrence of `\`
(including when neither character is present, which defaults to `/`), and
returns `\` otherwise.  The detected separator is the single `separator`
argument threaded through the whole of `mkPat` by `compilePattern`, so it
governs the entire compiled pattern. -/
theorem claim_C6_find_separator (s : Str) :
    findSeparator s =
      (match s.findIdx? (fun c => c = '/'), s.findIdx? (fun c => c = '\\') with
       | some i, some j => if i ≤ j then '/' else '\\'
       | some _, none => '/'
       | none, some _ => '\\'
       | none, none => '/') := by
  unfold findSeparator strFind
  rcases h1 : s.findIdx? (fun c => c = '/') with _ | i <;>
    rcases h2 : s.findIdx? (fun c => c = '\\') with _ | j <;>
    simp only [Option.getD_some, Option.getD_none]
  · simp
  · have hj := (List.findIdx?_eq_some_iff_findIdx_eq.mp h2).1
    rw [if_neg (by omega)]
  · have hi := (List.findIdx?_eq_some_iff_findIdx_eq.mp h1).1
    rw [if_pos (by omega)]

/-- **C8.** `percent_decode` never fails (it is a total function): each
valid `%XX` escape — a `%` followed by two hex digits that exist within
bounds — is replaced by the single byte those digits encode, and every
malformed or truncated escape (including a trailing `%` not followed by
two hex digits) is copied through literally. -/
theorem claim_C8_decode_lenient (a b : Char) (t : Str) :
    (isxdigitC a = true → isxdigitC b = true →
      percentDecode ('%' :: a :: b :: t) =
        Char.ofNat (16 * digitValueSpec a + digitValueSpec b) :: percentDecode t) ∧
    (¬(isxdigitC a = true ∧ isxdigitC b = true) →
      percentDecode ('%' :: a :: b :: t) = '%' :: percentDecode (a :: b :: t)) ∧
    percentDecode ('%' :: [a]) = '%' :: percentDecode [a] ∧
    percentDecode ['%'] = ['%'] ∧
    (∀ c, c ≠ '%' → percentDecode (c :: t) = c :: percentDecode t) := by
  refine ⟨?_, percentDecode_bad a b t, percentDecode_short1 a, percentDecode_short0,
    fun c hc => percentDecode_cons_ne c t hc⟩
  intro ha hb
  rw [percentDecode_escape a b t ha hb, hexVal_eq_digitValueSpec a ha,
    hexVal_eq_digitValueSpec b hb]

/-- Witness for C8 at concrete inputs: `%41` decodes to the byte `0x41`,
`%4g` and a bare `x` are copied through. -/
theorem claim_C8_witness :
    percentDecode ('%' :: '4' :: '1' :: []) =
      Char.ofNat (16 * digitValueSpec '4' + digitValueSpec '1') :: percentDecode [] ∧
    percentDecode ('%' :: '4' :: 'g' :: []) = '%' :: percentDecode ('4' :: 'g' :: []) ∧
    percentDecode ('x' :: ['!']) = 'x' :: percentDecode ['!'] :=
  ⟨(claim_C8_decode_lenient '4' '1' []).1 (by decide) (by decide),
   (claim_C8_decode_lenient '4' 'g' []).2.1 (by decide),
   (claim_C8_decode_lenient '4' 'g' ['!']).2.2.2.2 'x' (by decide)⟩

/-- **C7.** `percent_encode` passes alphanumeric characters and the fixed
punctuation allow-list through unchanged, renders every other byte as `%`
followed by two uppercase hex digits of its value (`hexChars` is exactly
the uppercase digit alphabet `0123456789ABCDEF`), and produces output of
length at most 3 times the length of the input. -/
theorem claim_C7_encode (x : Str) (hx : ∀ c ∈ x, c.toNat < 256) :
    (percentEncode x).length ≤ 3 * x.length ∧
    percentEncode x = x.flatMap encodeChar ∧
    ∀ c ∈ x,
      ((isalnumC c = true ∨ c ∈ specialChars) → encodeChar c = [c]) ∧
      (¬(isalnumC c = true ∨ c ∈ specialChars) →
        ∃ hi lo, encodeChar c = ['%', hi, lo] ∧ hi ∈ hexChars ∧ lo ∈ hexChars ∧
          16 * digitValueSpec hi + digitValueSpec lo = c.toNat) := by
  refine ⟨?_, percentEncode_eq_flatMap x, ?_⟩
  · induction x with
    | nil => simp [percentEncode]
    | cons c t ih =>
      have := encodeChar_length c
      simp only [percentEncode, List.length_append, List.length_cons]
      have ht := ih (fun d hd => hx d (List.mem_cons_of_mem c hd))
      omega
  · intro c hc
    constructor
    · intro hall
      have hcond : (isalnumC c || specialChars.contains c) = true := by
        rcases hall with h | h
        · simp [h]
        · simp only [Bool.or_eq_true]
          exact Or.inr ((contains_iff _ _).mpr h)
      unfold encodeChar
      rw [if_pos hcond]
    · intro hall
      have hcond : (isalnumC c || specialChars.contains c) = false := by
        rcases Bool.eq_false_or_eq_true (isalnumC c) with h1 | h1
        · exact absurd (Or.inl h1) hall
        · rcases Bool.eq_false_or_eq_true (specialChars.contains c) with h2 | h2
          · exact absurd (Or.inr ((contains_iff _ _).mp h2)) hall
          · rw [h1, h2]
            rfl
      have hb := hx c hc
      have hdiv : c.toNat / 16 < 16 := by omega
      have hmod : c.toNat % 16 < 16 := by omega
      obtain ⟨m1, _, d1, _⟩ := hexDigit_spec _ hdiv
      obtain ⟨m2, _, d2, _⟩ := hexDigit_spec _ hmod
      refine ⟨hexDigit (c.toNat / 16), hexDigit (c.toNat % 16), ?_, m1, m2, ?_⟩
      · have hnot : ¬((isalnumC c || specialChars.contains c) = true) := by
          rw [hcond]; simp
        unfold encodeChar
        rw [if_neg hnot]
      · rw [d1, d2]
        omega

/-- Witness for C7 at a concrete byte string containing a passed-through
character, an alphanumeric character and an escaped byte. -/
theorem claim_C7_witness :
    (percentEncode ['/', 'A', Char.ofNat 200]).length ≤
      3 * (['/', 'A', Char.ofNat 200] : Str).length :=
  (claim_C7_encode ['/', 'A', Char.ofNat 200] (by decide)).1


/-- **C2 (corrected).**  The unrestricted claim
`percent_decode (percent_encode x) = x` is false (see the counterexample).
Amended: the round trip is the identity on every byte string that does not
already contain a valid percent escape (no `%` followed by two hex
digits), i.e. on every string on which decoding is the identity. -/

theorem claim_C2_roundtrip_escape_free (x : Str) (hx : ∀ c ∈ x, c.toNat < 256)
    (he : hasEscape x = false) : percentDecode (percentEncode x) = x := by
  induction x with
  | nil => rfl
  | cons c t ih =>
    have hbyte : c.toNat < 256 := hx c (List.mem_cons_self c t)
    have hxt : ∀ d ∈ t, d.toNat < 256 := fun d hd => hx d (List.mem_cons_of_mem c hd)
    have hesc : hasEscape t = false := by
      have := he
      simp only [hasEscape, Bool.or_eq_false_iff] at this
      exact this.2
    show percentDecode (encodeChar c ++ percentEncode t) = c :: t
    rcases h1 : (isalnumC c || specialChars.contains c) with _ | _
    · rw [encodeChar_not_pass c h1]
      have hdiv : c.toNat / 16 < 16 := by omega
      have hmod : c.toNat % 16 < 16 := by omega
      obtain ⟨_, xh, _, vh⟩ := hexDigit_spec _ hdiv
      obtain ⟨_, xl, _, vl⟩ := hexDigit_spec _ hmod
      show percentDecode ('%' :: hexDigit (c.toNat / 16) :: hexDigit (c.toNat % 16)
        :: percentEncode t) = c :: t
      rw [percentDecode_escape _ _ _ xh xl, vh, vl, ih hxt hesc]
      congr 1
      have : 16 * (c.toNat / 16) + c.toNat % 16 = c.toNat := by omega
      rw [this, Char.ofNat_toNat]
    · rw [encodeChar_pass c h1]
      by_cases hc : c = '%'
      · subst hc
        have hse : startsEsc t = false := by
          have := he
          simp only [hasEscape, Bool.or_eq_false_iff, Bool.and_eq_false_iff] at this
          rcases this.1 with h | h
          · simp at h
          · exact h
        show percentDecode ('%' :: percentEncode t) = '%' :: t
        rw [decode_pct_cons _ (encode_startsEsc t hse), ih hxt hesc]
      · show percentDecode (c :: percentEncode t) = c :: t
        rw [percentDecode_cons_ne c _ hc, ih hxt hesc]

/-- Witness for C2 at a concrete escape-free input containing a space
(which the encoder escapes to `%20`). -/
theorem claim_C2_witness :
    percentDecode (percentEncode ("/a b".data)) = ("/a b".data) :=
  claim_C2_roundtrip_escape_free ("/a b".data) (by decide) (by decide)

/-- **C2 counterexample.**  `decode(encode("%41")) = "A" ≠ "%41"`: `%` is
in the encoder's allow-list and passes through, so an input that already
looks like a valid escape is collapsed by the decoder. -/
theorem claim_C2_counterexample :
    percentDecode (percentEncode ("%41".data)) = ("A".data) ∧
    percentDecode (percentEncode ("%41".data)) ≠ ("%41".data) := by
  constructor
  · decide
  · decide

/-- **C1 (corrected).**  The claim that `pattern()` returns the original
user-supplied pattern text is false: `path_to_regex::match` hands the
*compiled* low-level pattern to the matcher constructor, which stores it in
`m_pattern`, the field `pattern()` returns.  Amended: for every raw pattern
and every sensitivity, `pattern()` returns the compiled low-level regex
form — always of the anchored shape `^…?$` — rather than the raw text. -/
theorem claim_C1_pattern_is_compiled (p : Str) (sens : case_sensitivity) :
    (matchCompile p sens).pattern = (compilePattern p).1 ∧
    ∃ q, (matchCompile p sens).pattern = '^' :: q ++ ['?', '$'] := by
  refine ⟨rfl, ?_⟩
  obtain ⟨q, hq, _, _⟩ := compilePattern_shape p
  exact ⟨q, hq⟩

/-- **C1 counterexample.**  The matcher compiled from the empty pattern
reports `pattern() = "^\/?$"`, not the original empty text. -/
theorem claim_C1_counterexample :
    (matchCompile [] case_sensitivity.case_sensitive).pattern = ("^\\/?$".data) ∧
    (matchCompile [] case_sensitivity.case_sensitive).pattern ≠ ([] : Str) := by
  constructor
  · decide
  · decide

/-- **C4 (corrected).**  The match-level equivalence "M matches X iff M
matches X with one trailing separator appended" is false (see the
counterexample).  Amended to the structural invariant the spec also
states: the compiled pattern unconditionally ends with an optional single
separator before the end-of-input anchor — it has the shape `^ q ?$` where
`q`'s last character is the detected separator, so the final `?` makes
exactly one trailing separator optional. -/
theorem claim_C4_trailing_separator (p : Str) :
    ∃ q, (compilePattern p).1 = '^' :: q ++ ['?', '$'] ∧
      q.getLast? = some (findSeparator p) := by
  obtain ⟨q, hq, _, hl⟩ := compilePattern_shape p
  exact ⟨q, hq, hl⟩

/-- **C4 counterexample.**  The matcher compiled from `/:foo` matches
`/x/` but does not match `/x//` (the path obtained by appending one more
separator), refuting the "if and only if" as stated. -/
theorem claim_C4_counterexample :
    (evalMatcher (matchCompile ("/:foo".data) case_sensitivity.case_sensitive)
      ("/x/".data)).map Prod.fst = some true ∧
    (evalMatcher (matchCompile ("/:foo".data) case_sensitivity.case_sensitive)
      ("/x//".data)).map Prod.fst = some false := by
  constructor
  · decide
  · decide


/-- **C9.**  Absence of an optional group yields empty-string parameter
values, never a non-match: the matcher compiled from `{/:foo}` evaluated
on `""` yields `matched = true` with `params = {foo: ""}` (the group did
not participate, its capture is undefined, and `str()` of an unmatched
sub-match is empty), and evaluated on `"/x"` yields `matched = true` with
`params = {foo: "x"}`. -/
theorem claim_C9_optional_group :
    evalMatcher (matchCompile ("\x7b/:foo\x7d".data) case_sensitivity.case_sensitive)
      ([] : Str) = some (true, [("foo".data, ([] : Str))]) ∧
    evalMatcher (matchCompile ("\x7b/:foo\x7d".data) case_sensitivity.case_sensitive)
      ("/x".data) = some (true, [("foo".data, "x".data)]) := by
  constructor
  · decide
  · decide

/-- **C5.**  Matcher evaluation is total and never fails: it produces a
result exactly when construction produced a regex (failure can only come
from construction, never from the path); a non-matching path yields
`matched = false` with an empty params mapping; and params is populated
only when `matched = true`. -/
theorem claim_C5_total_eval (m : MatcherS) (path : Str) :
    ((evalMatcher m path).isSome = (parseTop m.pattern).isSome) ∧
    ∀ r, evalMatcher m path = some r →
      (r.1 = false → r.2 = []) ∧ (r.2 ≠ [] → r.1 = true) := by
  constructor
  · unfold evalMatcher
    cases parseTop m.pattern <;> rfl
  · intro r hr
    unfold evalMatcher at hr
    cases hp : parseTop m.pattern with
    | none => rw [hp] at hr; cases hr
    | some re =>
      rw [hp] at hr
      simp only [Option.map_some', Option.some.injEq] at hr
      subst hr
      unfold evalRegex
      cases h : runFull m.ci re (percentEncode path) with
      | none => simp
      | some caps => simp

/-- Witness for C5: the matcher for `/:foo` on the non-matching path
`/x/y` returns `(false, [])`, and the theorem applies to it. -/
theorem claim_C5_witness :
    ((false : Bool), ([] : Params)).2 = ([] : Params) :=
  ((claim_C5_total_eval (matchCompile ("/:foo".data) case_sensitivity.case_sensitive)
    ("/x/y".data)).2 (false, []) (by decide)).1 rfl

/-- **C10.**  Compiling the empty pattern yields a matcher that returns
`matched = true` with an empty params mapping for exactly the paths `""`
and `"/"`, and `matched = false` for every other path: the compiled
pattern degenerates to `^\/?$`, an anchored optional default separator. -/
theorem claim_C10_empty_pattern (path : Str) (sens : case_sensitivity) :
    ∃ r, evalMatcher (matchCompile [] sens) path = some r ∧
      (r.1 = true ↔ (path = [] ∨ path = ['/'])) ∧ r.2 = [] := by
  have hparse : parseTop (matchCompile [] sens).pattern = some emptyPatRegex := by
    rw [show (matchCompile [] sens).pattern = (compilePattern ([] : Str)).1 from rfl]
    decide
  refine ⟨evalRegex (matchCompile [] sens).ci emptyPatRegex (matchCompile [] sens).keys path,
    ?_, ?_, ?_⟩
  · unfold evalMatcher
    rw [hparse]
    rfl
  · unfold evalRegex
    rw [c10_engine]
    by_cases h : percentEncode path = [] ∨ percentEncode path = ['/']
    · rw [if_pos h]
      simp only [true_iff]
      rcases h with h | h
      · exact Or.inl ((percentEncode_nil_iff path).mp h)
      · exact Or.inr ((percentEncode_slash_iff path).mp h)
    · rw [if_neg h]
      simp only [Bool.false_eq_true, false_iff]
      intro hp
      rcases hp with hp | hp <;> subst hp
      · exact h (Or.inl rfl)
      · exact h (Or.inr (by decide))
  · unfold evalRegex
    rw [c10_engine]
    by_cases h : percentEncode path = [] ∨ percentEncode path = ['/']
    · rw [if_pos h]
      rfl
    · rw [if_neg h]

/-- **C3 (corrected).**  As stated the claim is false: a custom
sub-pattern such as `(?:abc)` is spliced verbatim and contributes no
capturing group, so `/:foo(?:abc)` compiles with one key but zero groups
(see the counterexample).  Amended: (1) whenever every spliced custom
sub-pattern is a well-formed fragment containing exactly one capturing
group, the compiled pattern contains exactly as many capturing groups as
there are keys; (2) a successful match always produces
`params = buildParams caps keys`; (3) the params mapping's key set is
exactly the set of names in the key list; and (4) a name bound more than
once takes the value of its last (highest-index) occurrence — the lookup
equals the value at the last matching entry of the indexed key list. -/
theorem claim_C3_keys_and_groups :
    (∀ p, (∀ cu ∈ (compilePattern p).2.2, Frag cu ∧ countGroups cu = 1) →
      countGroups (compilePattern p).1 = (compilePattern p).2.1.length) ∧
    (∀ ci re keys path caps,
      runFull ci re (percentEncode path) = some caps →
      evalRegex ci re keys path = (true, buildParams caps keys)) ∧
    (∀ caps keys k, ((lookupP (buildParams caps keys) k).isSome = true ↔ k ∈ keys)) ∧
    (∀ caps keys k,
      lookupP (buildParams caps keys) k =
        (keys.enum.reverse.find? (fun q => decide (q.2 = k))).map
          (fun q => valueOfIdx caps q.1)) := by
  refine ⟨compile_countGroups, ?_, lookupP_build_isSome, lookupP_build⟩
  intro ci re keys path caps h
  unfold evalRegex
  rw [h]

/-- Witness for C3: `/:foo` has no custom sub-patterns, one key and one
capturing group; a successful empty-pattern match yields the built
params. -/
theorem claim_C3_witness :
    countGroups (compilePattern ("/:foo".data)).1 =
      (compilePattern ("/:foo".data)).2.1.length ∧
    evalRegex false emptyPatRegex [] ([] : Str) = (true, buildParams [] []) :=
  ⟨claim_C3_keys_and_groups.1 ("/:foo".data)
      (by
        intro cu hcu
        rw [show (compilePattern ("/:foo".data)).2.2 = [] from rfl] at hcu
        cases hcu),
   claim_C3_keys_and_groups.2.1 false emptyPatRegex [] [] [] (by decide)⟩

/-- **C3 counterexample.**  `/:foo(?:abc)` yields one parameter key but
its compiled pattern (which the regex model accepts, so a matcher is
constructed) contains zero capturing groups. -/
theorem claim_C3_counterexample :
    (compilePattern ("/:foo(?:abc)".data)).2.1.length = 1 ∧
    countGroups (compilePattern ("/:foo(?:abc)".data)).1 = 0 ∧
    (parseTop (compilePattern ("/:foo(?:abc)".data)).1).isSome = true := by
  refine ⟨by decide, by decide, by decide⟩

end PathToRegex
